import Mathlib

/-!
Shallow embedding of the credential-store core of the `caddy-authz` repository
(vendored library `authfile`: `authdata.go`, `memoryservice.go`, `provider.go`,
plus the unnamed parts `workpool.go`-like and `MsgBuffer`).

Conventions:
* Go `map[string][]byte` is modelled as an association list with replace-on-insert.
* Go `error` replies (`nil` on success) are modelled as `Option AuthErr`
  (`none` = nil = success).
* bcrypt (`golang.org/x/crypto/bcrypt`, an external dependency, not part of
  this repository) is modelled abstractly: a well-formed bcrypt hash is a pair
  of the password it matches and the cost encoded in it; any other byte string
  is an opaque blob that fails to parse.  `GenerateFromPassword` raises a cost
  below `MinCost` (4) to `DefaultCost` (10) and fails for a cost above
  `MaxCost` (31); `Cost`/`CompareHashAndPassword` fail on hashes whose encoded
  cost is outside `[MinCost, MaxCost]` (Go's `checkCost`).
-/

/-- Model of a byte string that is stored as a password hash.
`bc pw c` is a well-formed bcrypt hash of password `pw` at encoded cost `c`;
`raw s` is any byte string that is not a well-formed bcrypt hash. -/
inductive BHash where
  | bc (pw : String) (cost : Int)
  | raw (s : String)
deriving DecidableEq, Repr

/-- bcrypt.MinCost. -/
def minCost : Int := 4
/-- bcrypt.MaxCost. -/
def maxCost : Int := 31
/-- bcrypt.DefaultCost. -/
def defaultCost : Int := 10

/-- Model of `bcrypt.GenerateFromPassword` (external dependency): a cost below
`MinCost` is replaced by `DefaultCost`; a cost above `MaxCost` is an
`InvalidCostError` (`none`); otherwise a well-formed hash at that cost. -/
def generateFromPassword (password : String) (cost : Int) : Option BHash :=
  let cost := if cost < minCost then defaultCost else cost
  if cost > maxCost then none else some (.bc password cost)

/-- Model of `bcrypt.Cost` (external dependency): decoding the cost succeeds
exactly on well-formed hashes, whose encoded cost always lies in
`[MinCost, MaxCost]` (Go's `decodeCost` runs `checkCost`). -/
def bcryptCost : BHash → Option Int
  | .bc _ c => if minCost ≤ c ∧ c ≤ maxCost then some c else none
  | .raw _ => none

/-- Model of `bcrypt.CompareHashAndPassword` (external dependency): `true`
means a `nil` error (match).  A hash that does not parse (opaque blob, or
encoded cost out of range) never matches. -/
def compareHashAndPassword (hash : BHash) (password : String) : Bool :=
  match hash with
  | .bc pw c => pw = password && minCost ≤ c && c ≤ maxCost
  | .raw _ => false

/-! ### Association lists modelling Go maps -/

/-- Lookup in an association list (Go `m[k]` with `ok`). -/
def alLookup {κ α : Type} [DecidableEq κ] : List (κ × α) → κ → Option α
  | [], _ => none
  | (k, v) :: rest, u => if k = u then some v else alLookup rest u

/-- Insert-or-replace in an association list (Go `m[k] = v`). -/
def alInsert {κ α : Type} [DecidableEq κ] : List (κ × α) → κ → α → List (κ × α)
  | [], u, h => [(u, h)]
  | (k, v) :: rest, u, h => if k = u then (u, h) :: rest else (k, v) :: alInsert rest u h

/-- Delete from an association list (Go `delete(m, k)`). -/
def alErase {κ α : Type} [DecidableEq κ] : List (κ × α) → κ → List (κ × α)
  | [], _ => []
  | (k, v) :: rest, u => if k = u then alErase rest u else (k, v) :: alErase rest u

theorem alLookup_alInsert_self {κ α : Type} [DecidableEq κ]
    (d : List (κ × α)) (u : κ) (h : α) : alLookup (alInsert d u h) u = some h := by
  induction d with
  | nil => simp [alInsert, alLookup]
  | cons p rest ih =>
    obtain ⟨k, v⟩ := p
    by_cases hk : k = u <;> simp [alInsert, alLookup, hk, ih]

theorem alLookup_alInsert_ne {κ α : Type} [DecidableEq κ]
    (d : List (κ × α)) (u w : κ) (h : α) (hne : w ≠ u) :
    alLookup (alInsert d u h) w = alLookup d w := by
  have hne' : u ≠ w := fun hh => hne hh.symm
  induction d with
  | nil => simp [alInsert, alLookup, hne']
  | cons p rest ih =>
    obtain ⟨k, v⟩ := p
    by_cases hk : k = u
    · subst hk
      simp [alInsert, alLookup, hne']
    · by_cases hw : k = w <;> simp [alInsert, alLookup, hk, hw, ih, hne]

/-! ### authData (`authdata.go`) -/

/-- The map owned by `authData` (`authdata.go` line 18–20). -/
def AuthData := List (String × BHash)
deriving DecidableEq

/-- Error taxonomy of the store (`authdata.go` lines 9–16, `memoryservice.go`
lines 10–13; `hashingError` stands for a bcrypt generation error forwarded on
the reply channel). -/
inductive AuthErr where
  | userNotFound
  | userExists
  | authFailed
  | noTransaction
  | hashingError
deriving DecidableEq, Repr

namespace AuthData

/-- `authData.delete` (`authdata.go` lines 28–35): reply and new state. -/
def delete (ad : AuthData) (username : String) : Option AuthErr × AuthData :=
  match alLookup ad username with
  | some _ => (none, alErase ad username)
  | none => (some .userNotFound, ad)

/-- `authData.add` (`authdata.go` lines 37–47): reply and new state. -/
def add (ad : AuthData) (username password : String) (cost : Int) :
    Option AuthErr × AuthData :=
  match alLookup ad username with
  | some _ => (some .userExists, ad)
  | none =>
    match generateFromPassword password cost with
    | some bhash => (none, alInsert ad username bhash)
    | none => (some .hashingError, ad)

/-- `authData.modify` (`authdata.go` lines 49–59): reply and new state. -/
def modify (ad : AuthData) (username password : String) (cost : Int) :
    Option AuthErr × AuthData :=
  match alLookup ad username with
  | some _ =>
    match generateFromPassword password cost with
    | some bhash => (none, alInsert ad username bhash)
    | none => (some .hashingError, ad)
  | none => (some .userNotFound, ad)

/-- `authData.verifyModify` (`authdata.go` lines 61–76): reply and new state. -/
def verifyModify (ad : AuthData) (username oldpassword newpassword : String)
    (cost : Int) : Option AuthErr × AuthData :=
  match alLookup ad username with
  | none => (some .userNotFound, ad)
  | some pass =>
    if ¬compareHashAndPassword pass oldpassword then (some .authFailed, ad)
    else
      match generateFromPassword newpassword cost with
      | some bhash => (none, alInsert ad username bhash)
      | none => (some .hashingError, ad)

/-- `authData.authenticate` (`authdata.go` lines 78–95): reply and new state.
On success, if the stored hash decodes to a cost lower than the current target
cost, the entry is replaced by a fresh hash of the same password — but only
when `GenerateFromPassword` succeeds (`if err == nil`). -/
def authenticate (ad : AuthData) (username password : String) (cost : Int) :
    Option AuthErr × AuthData :=
  match alLookup ad username with
  | none => (some .userNotFound, ad)
  | some pass =>
    if ¬compareHashAndPassword pass password then (some .authFailed, ad)
    else
      let ad' :=
        match bcryptCost pass with
        | some pcost =>
          if pcost < cost then
            match generateFromPassword password cost with
            | some bhash => alInsert ad username bhash
            | none => ad
          else ad
        | none => ad
      (none, ad')

end AuthData

/-! ### InMemoryService runner (`memoryservice.go`) -/

/-- The local state of `InMemoryService.runner` (`memoryservice.go` lines
83–91): current target cost, pending-transaction flag, pending dataset,
transaction id, and the active dataset. -/
structure ServiceState where
  cost : Int
  inLoad : Bool
  loadData : AuthData
  txid : Int
  curData : AuthData
deriving DecidableEq

/-- Initial runner state (`memoryservice.go` lines 83–91): empty active
dataset, `cost = bcrypt.DefaultCost`, no pending transaction.  (Go leaves
`loadData` as a nil pointer until `StartLoad`; it is modelled as empty.) -/
def initialState : ServiceState :=
  { cost := defaultCost, inLoad := false, loadData := [], txid := 0, curData := [] }

/-- `msgStartLoad` handler (`memoryservice.go` lines 116–122).  The fresh
transaction id comes from `time.Now().UnixNano()` and is passed as a
parameter `newTxid`. -/
def stepStartLoad (s : ServiceState) (newTxid : Int) : ServiceState :=
  { s with inLoad := true, loadData := [], txid := newTxid }

/-- `msgRollback` handler (`memoryservice.go` lines 123–128). -/
def stepRollback (s : ServiceState) (txid : Int) : ServiceState :=
  if s.inLoad ∧ (txid = 0 ∨ (txid = s.txid ∧ s.txid ≠ 0)) then
    { s with inLoad := false, loadData := [], txid := 0 }
  else s

/-- `msgCommit` handler (`memoryservice.go` lines 129–134): if a transaction
is pending the pending dataset becomes the active one; otherwise nothing
happens. -/
def stepCommit (s : ServiceState) : ServiceState :=
  if s.inLoad then { s with curData := s.loadData, inLoad := false, txid := 0 }
  else s

/-- `msgLoad` handler (`memoryservice.go` lines 135–141): reply and new
state.  Note the hash is stored as-is, without any validation. -/
def stepLoad (s : ServiceState) (username : String) (passwordHash : BHash) :
    Option AuthErr × ServiceState :=
  if s.inLoad then
    (none, { s with loadData := alInsert s.loadData username passwordHash })
  else (some .noTransaction, s)

/-- `msgAuthenticate` handler (`memoryservice.go` line 94–95). -/
def stepAuthenticate (s : ServiceState) (username password : String) :
    Option AuthErr × ServiceState :=
  let (r, d) := AuthData.authenticate s.curData username password s.cost
  (r, { s with curData := d })

/-- `msgAdd` handler applied to the active dataset (`memoryservice.go` line
105; the buffering of the message while `inLoad` is modelled separately, see
`RunnerState`). -/
def stepAdd (s : ServiceState) (username password : String) :
    Option AuthErr × ServiceState :=
  let (r, d) := AuthData.add s.curData username password s.cost
  (r, { s with curData := d })

/-- `msgModify` handler applied to the active dataset (`memoryservice.go`
line 110). -/
def stepModify (s : ServiceState) (username password : String) :
    Option AuthErr × ServiceState :=
  let (r, d) := AuthData.modify s.curData username password s.cost
  (r, { s with curData := d })

/-- `msgVerifyModify` handler applied to the active dataset
(`memoryservice.go` line 115). -/
def stepVerifyModify (s : ServiceState) (username oldpassword newpassword : String) :
    Option AuthErr × ServiceState :=
  let (r, d) := AuthData.verifyModify s.curData username oldpassword newpassword s.cost
  (r, { s with curData := d })

/-- `msgDelete` handler applied to the active dataset (`memoryservice.go`
line 100). -/
def stepDelete (s : ServiceState) (username : String) :
    Option AuthErr × ServiceState :=
  let (r, d) := AuthData.delete s.curData username
  (r, { s with curData := d })

/-- `msgSetCost` handler (`memoryservice.go` lines 144–145). -/
def stepSetCost (s : ServiceState) (cost : Int) : ServiceState :=
  { s with cost := cost }

/-- `Entry` (from the interface file: username plus password hash). -/
structure Entry where
  username : String
  passwordHash : BHash
deriving DecidableEq

/-- `msgList` handler (`memoryservice.go` lines 146–151): snapshot of the
active dataset. -/
def listEntries (s : ServiceState) : List Entry :=
  s.curData.map (fun p => ⟨p.1, p.2⟩)

/-- One command delivered on the runner's queue (`memoryservice.go` message
types).  `startLoad` carries the fresh transaction id the Go code reads from
the clock. -/
inductive Cmd where
  | authenticate (username password : String)
  | delete (username : String)
  | add (username password : String)
  | modify (username password : String)
  | verifyModify (username oldpassword newpassword : String)
  | startLoad (newTxid : Int)
  | load (username : String) (passwordHash : BHash)
  | commit
  | rollback (txid : Int)
  | setCost (cost : Int)
deriving DecidableEq

/-- The runner's switch (`memoryservice.go` lines 92–155), state part only
(replies are given by the individual `step*` functions). -/
def runnerStep (s : ServiceState) : Cmd → ServiceState
  | .authenticate u pw => (stepAuthenticate s u pw).2
  | .delete u => (stepDelete s u).2
  | .add u pw => (stepAdd s u pw).2
  | .modify u pw => (stepModify s u pw).2
  | .verifyModify u old new => (stepVerifyModify s u old new).2
  | .startLoad t => stepStartLoad s t
  | .load u h => (stepLoad s u h).2
  | .commit => stepCommit s
  | .rollback t => stepRollback s t
  | .setCost c => stepSetCost s c

/-- Processing a whole queue of commands in order. -/
def runnerExec (s : ServiceState) (cmds : List Cmd) : ServiceState :=
  cmds.foldl runnerStep s

/-! ### Claim theorems: authenticate and error atomicity -/

/-- C1: for every store state and call `Authenticate(user, pass)`, the reply is
nil when the user is present and the password matches the stored hash,
`AuthenticationFailed` when the user is present but the password does not
match, and `UserNotFound` when the user is absent. -/
theorem C1_authenticate_cases (ad : AuthData) (u pw : String) (cost : Int) :
    (∀ h, alLookup ad u = some h → compareHashAndPassword h pw = true →
      (AuthData.authenticate ad u pw cost).1 = none)
    ∧ (∀ h, alLookup ad u = some h → compareHashAndPassword h pw = false →
      (AuthData.authenticate ad u pw cost).1 = some .authFailed)
    ∧ (alLookup ad u = none →
      (AuthData.authenticate ad u pw cost).1 = some .userNotFound) := by
  refine ⟨fun h hl hc => ?_, fun h hl hc => ?_, fun hl => ?_⟩
  · simp [AuthData.authenticate, hl, hc]
  · simp [AuthData.authenticate, hl, hc]
  · simp [AuthData.authenticate, hl]

/-- Witness for C1 at a concrete store: user `alice` with password `p`
hashed at cost 10. -/
theorem C1_authenticate_cases_witness :
    (AuthData.authenticate [("alice", BHash.bc "p" 10)] "alice" "p" 10).1 = none
    ∧ (AuthData.authenticate [("alice", BHash.bc "p" 10)] "alice" "wrong" 10).1
        = some .authFailed
    ∧ (AuthData.authenticate [("alice", BHash.bc "p" 10)] "ghost" "p" 10).1
        = some .userNotFound :=
  ⟨(C1_authenticate_cases [("alice", BHash.bc "p" 10)] "alice" "p" 10).1
      (BHash.bc "p" 10) (by decide) (by decide),
   (C1_authenticate_cases [("alice", BHash.bc "p" 10)] "alice" "wrong" 10).2.1
      (BHash.bc "p" 10) (by decide) (by decide),
   (C1_authenticate_cases [("alice", BHash.bc "p" 10)] "ghost" "p" 10).2.2
      (by decide)⟩

/-- C5: `Add` on an existing user replies `UserExists` and leaves the store
unchanged (so the old password still authenticates), and `VerifyModify` with a
non-matching old password replies `AuthenticationFailed` and leaves the store
unchanged. -/
theorem C5_mutations_atomic_on_error (ad : AuthData)
    (u pw pwOld pwNew : String) (cost : Int) (h : BHash) :
    (alLookup ad u = some h →
      AuthData.add ad u pw cost = (some .userExists, ad)
      ∧ (compareHashAndPassword h pwOld = true →
          (AuthData.authenticate (AuthData.add ad u pw cost).2 u pwOld cost).1 = none))
    ∧ (alLookup ad u = some h → compareHashAndPassword h pwOld = false →
      AuthData.verifyModify ad u pwOld pwNew cost = (some .authFailed, ad)) := by
  refine ⟨fun hl => ⟨?_, fun hc => ?_⟩, fun hl hc => ?_⟩
  · simp [AuthData.add, hl]
  · simp [AuthData.add, AuthData.authenticate, hl, hc]
  · simp [AuthData.verifyModify, hl, hc]

/-- Witness for C5: `bob` exists with password `x` hashed at cost 10; a second
`Add` fails `UserExists` and `x` still authenticates; `VerifyModify` with a
wrong old password fails `AuthenticationFailed` and the store is unchanged. -/
theorem C5_mutations_atomic_on_error_witness :
    (AuthData.add [("bob", BHash.bc "x" 10)] "bob" "y" 10
        = (some .userExists, [("bob", BHash.bc "x" 10)])
      ∧ (AuthData.authenticate (AuthData.add [("bob", BHash.bc "x" 10)] "bob" "y" 10).2
          "bob" "x" 10).1 = none)
    ∧ AuthData.verifyModify [("bob", BHash.bc "x" 10)] "bob" "wrong" "z" 10
        = (some .authFailed, [("bob", BHash.bc "x" 10)]) :=
  ⟨⟨((C5_mutations_atomic_on_error [("bob", BHash.bc "x" 10)] "bob" "y" "x" "z" 10
        (BHash.bc "x" 10)).1 (by decide)).1,
    ((C5_mutations_atomic_on_error [("bob", BHash.bc "x" 10)] "bob" "y" "x" "z" 10
        (BHash.bc "x" 10)).1 (by decide)).2 (by decide)⟩,
   (C5_mutations_atomic_on_error [("bob", BHash.bc "x" 10)] "bob" "y" "wrong" "z" 10
        (BHash.bc "x" 10)).2 (by decide) (by decide)⟩

/-- C6: `Load(user, hash)` replies `NoActiveTransaction` exactly when no load
transaction is pending; with a pending transaction it inserts the pair into
the pending dataset (the active dataset untouched) and replies nil. -/
theorem C6_load_requires_transaction (s : ServiceState) (u : String) (h : BHash) :
    ((stepLoad s u h).1 = some .noTransaction ↔ s.inLoad = false)
    ∧ (s.inLoad = true →
        stepLoad s u h = (none, { s with loadData := alInsert s.loadData u h })) := by
  constructor
  · cases hl : s.inLoad <;> simp [stepLoad, hl]
  · intro hl
    simp [stepLoad, hl]

/-- Witness for C6: loading into the initial state (no transaction) fails
`NoActiveTransaction`. -/
theorem C6_load_requires_transaction_witness :
    (stepLoad initialState "alice" (BHash.raw "H")).1 = some .noTransaction :=
  (C6_load_requires_transaction initialState "alice" (BHash.raw "H")).1.mpr (by decide)

/-! ### Transaction traces (C2, C3) -/

/-- Folding a batch of `Load` pairs into a dataset. -/
def loadFold (d : AuthData) (loads : List (String × BHash)) : AuthData :=
  loads.foldl (fun d p => alInsert d p.1 p.2) d

theorem alLookup_loadFold_not_mem (loads : List (String × BHash))
    (d : AuthData) (u : String) (hu : u ∉ loads.map Prod.fst) :
    alLookup (loadFold d loads) u = alLookup d u := by
  induction loads generalizing d with
  | nil => rfl
  | cons p rest ih =>
    simp only [List.map_cons, List.mem_cons] at hu
    push_neg at hu
    show alLookup (loadFold (alInsert d p.1 p.2) rest) u = alLookup d u
    rw [ih (alInsert d p.1 p.2) hu.2]
    exact alLookup_alInsert_ne d p.1 u p.2 hu.1

theorem runnerExec_loads (s : ServiceState) (hs : s.inLoad = true)
    (loads : List (String × BHash)) :
    runnerExec s (loads.map fun p => Cmd.load p.1 p.2) =
      { s with loadData := loadFold s.loadData loads } := by
  induction loads generalizing s with
  | nil =>
    simp [runnerExec, loadFold]
  | cons p rest ih =>
    simp only [List.map_cons, runnerExec, List.foldl_cons]
    have hstep : runnerStep s (Cmd.load p.1 p.2) =
        { s with loadData := alInsert s.loadData p.1 p.2 } := by
      simp [runnerStep, stepLoad, hs]
    rw [hstep]
    exact ih { s with loadData := alInsert s.loadData p.1 p.2 } hs

/-- C2: committing a pending load replaces the active dataset wholesale: after
`StartLoad`, a batch of `Load` calls and `Commit`, the active dataset is
exactly the fold of the loaded pairs — in particular any user not loaded in
the batch is absent, whatever the previous active dataset held; and `Commit`
with no pending transaction leaves the state unchanged. -/
theorem C2_commit_full_replace (s : ServiceState) (t : Int)
    (loads : List (String × BHash)) :
    (runnerExec s (Cmd.startLoad t ::
        (loads.map (fun p => Cmd.load p.1 p.2) ++ [Cmd.commit]))).curData
      = loadFold [] loads
    ∧ (∀ u, u ∉ loads.map Prod.fst →
        alLookup (runnerExec s (Cmd.startLoad t ::
          (loads.map (fun p => Cmd.load p.1 p.2) ++ [Cmd.commit]))).curData u = none)
    ∧ (s.inLoad = false → stepCommit s = s) := by
  have h1 : runnerExec s (Cmd.startLoad t ::
      (loads.map (fun p => Cmd.load p.1 p.2) ++ [Cmd.commit])) =
      stepCommit (runnerExec (stepStartLoad s t) (loads.map fun p => Cmd.load p.1 p.2)) := by
    simp [runnerExec, runnerStep, List.foldl_append]
  have h2 : runnerExec (stepStartLoad s t) (loads.map fun p => Cmd.load p.1 p.2) =
      { stepStartLoad s t with loadData := loadFold [] loads } :=
    runnerExec_loads (stepStartLoad s t) rfl loads
  have h3 : (runnerExec s (Cmd.startLoad t ::
      (loads.map (fun p => Cmd.load p.1 p.2) ++ [Cmd.commit]))).curData
      = loadFold [] loads := by
    rw [h1, h2]
    simp [stepStartLoad, stepCommit]
  refine ⟨h3, fun u hu => ?_, fun hnl => ?_⟩
  · rw [h3, alLookup_loadFold_not_mem loads [] u hu]
    rfl
  · simp [stepCommit, hnl]

/-- Witness for C2 at a concrete trace: a store holding `bob` reloaded with
only `alice`; after the commit `alice` is present and `bob` is gone. -/
theorem C2_commit_full_replace_witness :
    (runnerExec { initialState with curData := [("bob", BHash.bc "x" 10)] }
        (Cmd.startLoad 1 ::
          ([("alice", BHash.raw "H")].map (fun p => Cmd.load p.1 p.2) ++ [Cmd.commit]))).curData
      = loadFold [] [("alice", BHash.raw "H")]
    ∧ alLookup (runnerExec { initialState with curData := [("bob", BHash.bc "x" 10)] }
        (Cmd.startLoad 1 ::
          ([("alice", BHash.raw "H")].map (fun p => Cmd.load p.1 p.2) ++ [Cmd.commit]))).curData
        "bob" = none :=
  ⟨(C2_commit_full_replace { initialState with curData := [("bob", BHash.bc "x" 10)] }
      1 [("alice", BHash.raw "H")]).1,
   (C2_commit_full_replace { initialState with curData := [("bob", BHash.bc "x" 10)] }
      1 [("alice", BHash.raw "H")]).2.1 "bob" (by decide)⟩

/-- C3: the dataset observed by `Authenticate`/`List` never reflects a pending
transaction: a `Load` leaves the listed entries unchanged, and a trace
`StartLoad; Load...; Rollback` leaves `List()` exactly as before the
`StartLoad` (the caller-initiated `Rollback()` sends transaction id 0, which
always matches). -/
theorem C3_pending_invisible (s : ServiceState) (t : Int)
    (loads : List (String × BHash)) (u : String) (h : BHash) :
    listEntries (stepLoad s u h).2 = listEntries s
    ∧ listEntries (runnerExec s (Cmd.startLoad t ::
        (loads.map (fun p => Cmd.load p.1 p.2) ++ [Cmd.rollback 0]))) = listEntries s := by
  constructor
  · cases hl : s.inLoad <;> simp [stepLoad, hl, listEntries]
  · have h1 : runnerExec s (Cmd.startLoad t ::
        (loads.map (fun p => Cmd.load p.1 p.2) ++ [Cmd.rollback 0])) =
        stepRollback (runnerExec (stepStartLoad s t)
          (loads.map fun p => Cmd.load p.1 p.2)) 0 := by
      simp [runnerExec, runnerStep, List.foldl_append]
    rw [h1, runnerExec_loads (stepStartLoad s t) rfl loads]
    simp [stepStartLoad, stepRollback, listEntries]

/-! ### C7: the stored-hash cost invariant -/

/-- The invariant claimed of every entry: its hash decodes to a valid cost at
least `MinCost`. -/
def costInvariant (ad : AuthData) : Prop :=
  ∀ u h, alLookup ad u = some h → ∃ c, bcryptCost h = some c ∧ minCost ≤ c

theorem generateFromPassword_good (pw : String) (cost : Int) (h : BHash)
    (hg : generateFromPassword pw cost = some h) :
    ∃ c, bcryptCost h = some c ∧ minCost ≤ c := by
  unfold generateFromPassword at hg
  by_cases h4 : cost < minCost
  · simp only [h4, if_true] at hg
    refine ⟨defaultCost, ?_, by norm_num [minCost, defaultCost]⟩
    have : ¬(defaultCost > maxCost) := by norm_num [defaultCost, maxCost]
    simp only [this, if_false] at hg
    cases hg
    simp [bcryptCost, minCost, maxCost, defaultCost]
  · simp only [h4, if_false] at hg
    by_cases h31 : cost > maxCost
    · simp [h31] at hg
    · simp only [h31, if_false] at hg
      cases hg
      refine ⟨cost, ?_, by omega⟩
      have : minCost ≤ cost ∧ cost ≤ maxCost := by omega
      simp [bcryptCost, this]

theorem costInvariant_alInsert (ad : AuthData) (u : String) (h : BHash)
    (hinv : costInvariant ad) (hgood : ∃ c, bcryptCost h = some c ∧ minCost ≤ c) :
    costInvariant (alInsert ad u h) := by
  intro w h' hl
  by_cases hw : w = u
  · subst hw
    rw [alLookup_alInsert_self] at hl
    cases hl
    exact hgood
  · rw [alLookup_alInsert_ne ad u w h hw] at hl
    exact hinv w h' hl

theorem alLookup_alErase {κ α : Type} [DecidableEq κ]
    (d : List (κ × α)) (u w : κ) :
    alLookup (alErase d u) w = if w = u then none else alLookup d w := by
  induction d with
  | nil => simp [alErase, alLookup]
  | cons p rest ih =>
    obtain ⟨k, v⟩ := p
    simp only [alErase, alLookup]
    by_cases hk : k = u
    · rw [if_pos hk, ih]
      by_cases hw : w = u
      · simp [hw]
      · have hkw : ¬k = w := fun hh => hw (hh.symm.trans hk)
        simp [hw, hkw]
    · rw [if_neg hk]
      simp only [alLookup, ih]
      by_cases hkw : k = w
      · have hwu : ¬w = u := fun hh => hk (hkw.trans hh)
        simp [hkw, hwu]
      · simp [hkw]

/-- A state reached from the initial store by `StartLoad; Load("u", garbage);
Commit` — the runner stores the supplied bytes without any validation
(`memoryservice.go` line 137). -/
def c7LoadedState : ServiceState :=
  runnerExec initialState
    [Cmd.startLoad 1, Cmd.load "u" (BHash.raw "garbage"), Cmd.commit]

/-- C7 counterexample: a reachable state (reload of a file with a garbage hash
line) holds an entry whose password hash does not decode to any cost at all,
so the claimed invariant is not preserved by `Load`/`Commit`. -/
theorem C7_counterexample_load_unvalidated :
    alLookup c7LoadedState.curData "u" = some (BHash.raw "garbage")
    ∧ bcryptCost (BHash.raw "garbage") = none := by
  constructor
  · rfl
  · rfl

/-- C7 (amended): the operations that create hashes themselves — `Add`,
`Modify`, `VerifyModify`, the authenticate rehash, and `Delete` — preserve the
invariant that every stored hash decodes to a valid cost at least `MinCost`;
`Load`/`Commit` does not validate and can break it. -/
theorem C7_amended_hashing_ops_preserve_cost_invariant (s : ServiceState)
    (u pw pwOld pwNew : String) (hinv : costInvariant s.curData) :
    costInvariant (stepAdd s u pw).2.curData
    ∧ costInvariant (stepModify s u pw).2.curData
    ∧ costInvariant (stepVerifyModify s u pwOld pwNew).2.curData
    ∧ costInvariant (stepAuthenticate s u pw).2.curData
    ∧ costInvariant (stepDelete s u).2.curData := by
  refine ⟨?_, ?_, ?_, ?_, ?_⟩
  · show costInvariant (AuthData.add s.curData u pw s.cost).2
    unfold AuthData.add
    cases hl : alLookup s.curData u
    · cases hg : generateFromPassword pw s.cost with
      | none => simpa using hinv
      | some bhash =>
        simp only []
        exact costInvariant_alInsert s.curData u bhash hinv
          (generateFromPassword_good pw s.cost bhash hg)
    · simpa using hinv
  · show costInvariant (AuthData.modify s.curData u pw s.cost).2
    unfold AuthData.modify
    cases hl : alLookup s.curData u
    · simpa using hinv
    · cases hg : generateFromPassword pw s.cost with
      | none => simpa using hinv
      | some bhash =>
        simp only []
        exact costInvariant_alInsert s.curData u bhash hinv
          (generateFromPassword_good pw s.cost bhash hg)
  · show costInvariant (AuthData.verifyModify s.curData u pwOld pwNew s.cost).2
    unfold AuthData.verifyModify
    cases hl : alLookup s.curData u with
    | none => simpa using hinv
    | some pass =>
      by_cases hc : compareHashAndPassword pass pwOld
      · cases hg : generateFromPassword pwNew s.cost with
        | none => simpa [hc] using hinv
        | some bhash =>
          simp only [hc, not_true, if_false]
          simpa [hg] using costInvariant_alInsert s.curData u bhash hinv
            (generateFromPassword_good pwNew s.cost bhash hg)
      · simpa [hc] using hinv
  · show costInvariant (AuthData.authenticate s.curData u pw s.cost).2
    unfold AuthData.authenticate
    cases hl : alLookup s.curData u with
    | none => simpa using hinv
    | some pass =>
      by_cases hc : compareHashAndPassword pass pw
      · cases hpc : bcryptCost pass with
        | none => simpa [hc, hpc] using hinv
        | some pcost =>
          by_cases hlt : pcost < s.cost
          · cases hg : generateFromPassword pw s.cost with
            | none => simpa [hc, hpc, hlt, hg] using hinv
            | some bhash =>
              simpa [hc, hpc, hlt, hg] using
                costInvariant_alInsert s.curData u bhash hinv
                  (generateFromPassword_good pw s.cost bhash hg)
          · simpa [hc, hpc, hlt] using hinv
      · simpa [hc] using hinv
  · show costInvariant (AuthData.delete s.curData u).2
    unfold AuthData.delete
    cases hl : alLookup s.curData u with
    | none => simpa using hinv
    | some pass =>
      show costInvariant (alErase s.curData u)
      intro w h' hw
      rw [alLookup_alErase] at hw
      by_cases hwu : w = u
      · simp [hwu] at hw
      · rw [if_neg hwu] at hw
        exact hinv w h' hw

/-- Witness for C7 (amended): starting from the empty store, the hashing
operations keep the invariant. -/
theorem C7_amended_witness :
    costInvariant (stepAdd initialState "bob" "x").2.curData
    ∧ costInvariant (stepModify initialState "bob" "x").2.curData
    ∧ costInvariant (stepVerifyModify initialState "bob" "x" "y").2.curData
    ∧ costInvariant (stepAuthenticate initialState "bob" "x").2.curData
    ∧ costInvariant (stepDelete initialState "bob").2.curData :=
  C7_amended_hashing_ops_preserve_cost_invariant initialState "bob" "x" "x" "y"
    (fun u h hl => by simp [initialState, alLookup] at hl)

/-! ### C4: cost upgrade on successful authenticate -/

/-- Helper: whenever the user is present and the password compares, the
authenticate reply is nil, whatever the rehash branch does. -/
theorem authenticate_reply_of_match (ad : AuthData) (u pw : String) (cost : Int)
    (h : BHash) (hl : alLookup ad u = some h)
    (hc : compareHashAndPassword h pw = true) :
    (AuthData.authenticate ad u pw cost).1 = none := by
  simp [AuthData.authenticate, hl, hc]

/-- C4 counterexample: with stored hash at cost 10 and target cost 32 (set via
`SetCost`, which accepts any integer), `Authenticate` succeeds and the stored
cost is below the target, yet the entry is NOT replaced — `GenerateFromPassword`
fails for a cost above `bcrypt.MaxCost` (31) and the code skips the
replacement (`authdata.go` lines 86–89). -/
theorem C4_counterexample_rehash_skipped :
    bcryptCost (BHash.bc "p" 10) = some 10
    ∧ (10 : Int) < 32
    ∧ (AuthData.authenticate [("u", BHash.bc "p" 10)] "u" "p" 32).1 = none
    ∧ (AuthData.authenticate [("u", BHash.bc "p" 10)] "u" "p" 32).2
        = [("u", BHash.bc "p" 10)] := by
  refine ⟨by decide, by decide, by decide, by decide⟩

/-- C4 (amended): on a successful `Authenticate` whose stored hash decodes to
a cost below the target cost, the reply is nil and the same password still
authenticates afterwards; the entry is replaced by a rehash at the target cost
provided the target cost does not exceed `bcrypt.MaxCost` (31) — otherwise the
rehash generation fails and the entry is left unchanged. -/
theorem C4_amended_rehash_on_success (ad : AuthData) (u pw : String)
    (cost pcost : Int) (h : BHash)
    (hl : alLookup ad u = some h)
    (hpc : bcryptCost h = some pcost)
    (hc : compareHashAndPassword h pw = true)
    (hlt : pcost < cost) :
    (AuthData.authenticate ad u pw cost).1 = none
    ∧ (cost ≤ maxCost →
        alLookup (AuthData.authenticate ad u pw cost).2 u = some (BHash.bc pw cost))
    ∧ (maxCost < cost → (AuthData.authenticate ad u pw cost).2 = ad)
    ∧ (AuthData.authenticate (AuthData.authenticate ad u pw cost).2 u pw cost).1
        = none := by
  have hpc4 : minCost ≤ pcost := by
    cases h with
    | bc pw' c' =>
      unfold bcryptCost at hpc
      by_cases hr : minCost ≤ c' ∧ c' ≤ maxCost
      · simp [hr] at hpc
        omega
      · simp [hr] at hpc
    | raw s => simp [bcryptCost] at hpc
  have hcost4 : ¬cost < minCost := by omega
  constructor
  · simp [AuthData.authenticate, hl, hc]
  constructor
  · intro hle
    have hg : generateFromPassword pw cost = some (BHash.bc pw cost) := by
      simp [generateFromPassword, hcost4]
      omega
    simp [AuthData.authenticate, hl, hc, hpc, hlt, hg, alLookup_alInsert_self]
  constructor
  · intro hgt
    have hg : generateFromPassword pw cost = none := by
      simp [generateFromPassword, hcost4]
      omega
    simp [AuthData.authenticate, hl, hc, hpc, hlt, hg]
  · by_cases hle : cost ≤ maxCost
    · have hg : generateFromPassword pw cost = some (BHash.bc pw cost) := by
        simp [generateFromPassword, hcost4]
        omega
      have hl' : alLookup (AuthData.authenticate ad u pw cost).2 u
          = some (BHash.bc pw cost) := by
        simp [AuthData.authenticate, hl, hc, hpc, hlt, hg, alLookup_alInsert_self]
      have hc' : compareHashAndPassword (BHash.bc pw cost) pw = true := by
        simp [compareHashAndPassword]
        omega
      exact authenticate_reply_of_match _ u pw cost _ hl' hc'
    · have hg : generateFromPassword pw cost = none := by
        simp [generateFromPassword, hcost4]
        omega
      have hsame : (AuthData.authenticate ad u pw cost).2 = ad := by
        simp [AuthData.authenticate, hl, hc, hpc, hlt, hg]
      rw [hsame]
      exact authenticate_reply_of_match _ u pw cost _ hl hc

/-- Witness for C4 (amended): stored hash of `p` at cost 4, target cost 10 —
the authenticate call succeeds, the entry is rehashed at cost 10, and `p`
still authenticates. -/
theorem C4_amended_rehash_on_success_witness :
    (AuthData.authenticate [("u", BHash.bc "p" 4)] "u" "p" 10).1 = none
    ∧ ((10 : Int) ≤ maxCost →
        alLookup (AuthData.authenticate [("u", BHash.bc "p" 4)] "u" "p" 10).2 "u"
          = some (BHash.bc "p" 10))
    ∧ (maxCost < (10 : Int) →
        (AuthData.authenticate [("u", BHash.bc "p" 4)] "u" "p" 10).2
          = [("u", BHash.bc "p" 4)])
    ∧ (AuthData.authenticate
        (AuthData.authenticate [("u", BHash.bc "p" 4)] "u" "p" 10).2 "u" "p" 10).1
        = none :=
  C4_amended_rehash_on_success [("u", BHash.bc "p" 4)] "u" "p" 10 4 (BHash.bc "p" 4)
    (by decide) (by decide) (by decide) (by decide)

/-! ### C8: mutation buffering during a load and reply channels

The runner (`memoryservice.go` lines 96–115) forwards each mutation message
received while a transaction is pending to `msgBuffer` — the WHOLE message
`m`, including its one-shot reply channel — and also processes it immediately
(which sends the one reply its caller waits for; the caller then closes the
channel, `memoryservice.go` lines 185–195).  `MsgBuffer` (the unnamed source
part) stores items unchanged and later flushes them, in order, back into
`service.c`, where the runner processes each a second time and sends a second
reply into the same channel.  Reply channels are modelled as abstract ids and
the model records every (channel, reply) send. -/

/-- A message on the runner's queue, carrying the caller's one-shot reply
channel as an abstract id (only the constructors relevant to the buffering
path are modelled; fire-and-forget messages carry no channel). -/
inductive SvcMsg where
  | addMsg (username password : String) (r : Nat)
  | modifyMsg (username password : String) (r : Nat)
  | deleteMsg (username : String) (r : Nat)
  | verifyModifyMsg (username oldpassword newpassword : String) (r : Nat)
  | startLoadMsg (newTxid : Int)
  | commitMsg
  | rollbackMsg (txid : Int)
deriving DecidableEq

/-- Runner state together with the `MsgBuffer` contents and the log of all
replies sent (channel id, reply). -/
structure RunnerState where
  svc : ServiceState
  buffer : List SvcMsg
  replies : List (Nat × Option AuthErr)
deriving DecidableEq

/-- One iteration of the runner loop (`memoryservice.go` lines 92–155): a
mutation arriving during a pending load is first forwarded — unchanged, reply
channel included — to the buffer, then applied to the active dataset and
answered on its reply channel. -/
def processMsg (rs : RunnerState) : SvcMsg → RunnerState
  | .addMsg u pw r =>
    let rs1 := if rs.svc.inLoad
      then { rs with buffer := rs.buffer ++ [.addMsg u pw r] } else rs
    let (rep, s') := stepAdd rs1.svc u pw
    { rs1 with svc := s', replies := rs1.replies ++ [(r, rep)] }
  | .modifyMsg u pw r =>
    let rs1 := if rs.svc.inLoad
      then { rs with buffer := rs.buffer ++ [.modifyMsg u pw r] } else rs
    let (rep, s') := stepModify rs1.svc u pw
    { rs1 with svc := s', replies := rs1.replies ++ [(r, rep)] }
  | .deleteMsg u r =>
    let rs1 := if rs.svc.inLoad
      then { rs with buffer := rs.buffer ++ [.deleteMsg u r] } else rs
    let (rep, s') := stepDelete rs1.svc u
    { rs1 with svc := s', replies := rs1.replies ++ [(r, rep)] }
  | .verifyModifyMsg u old new r =>
    let rs1 := if rs.svc.inLoad
      then { rs with buffer := rs.buffer ++ [.verifyModifyMsg u old new r] } else rs
    let (rep, s') := stepVerifyModify rs1.svc u old new
    { rs1 with svc := s', replies := rs1.replies ++ [(r, rep)] }
  | .startLoadMsg t => { rs with svc := stepStartLoad rs.svc t }
  | .commitMsg => { rs with svc := stepCommit rs.svc }
  | .rollbackMsg t => { rs with svc := stepRollback rs.svc t }

/-- `MsgBuffer` flush (unnamed source part, lines 14–36): the buffered items
are sent back, unchanged and in arrival order, into `service.c`, and the
runner processes them again. -/
def flushBuffer (rs : RunnerState) : RunnerState :=
  rs.buffer.foldl processMsg { rs with buffer := [] }

/-- Number of replies the runner has sent into channel `r`. -/
def repliesTo (rs : RunnerState) (r : Nat) : Nat :=
  (rs.replies.filter (fun p => p.1 = r)).length

/-- C8: the code evaluated at the failing input.  An `Add("bob","x")` arriving
while a load transaction is pending is buffered together with its one-shot
reply channel (id 0); after the transaction rolls back and the buffer flushes,
the same message is processed a second time and channel 0 receives a second
reply — contradicting the claim that a replayed mutation never carries the
original caller's reply channel.  (The caller has already received and closed
the channel, so in Go the second send panics.) -/
theorem C8_replay_reuses_reply_channel :
    repliesTo
      (flushBuffer
        (processMsg
          (processMsg
            (processMsg ⟨initialState, [], []⟩ (.startLoadMsg 1))
            (.addMsg "bob" "x" 0))
          (.rollbackMsg 0)))
      0 = 2 := by
  decide

/-! ### FileBackend (`provider.go`)

The file layer works on byte strings, modelled as `List Char` (the backing
file is ASCII: usernames, bcrypt hashes and decimal cost directives).
`strings.TrimSpace` is modelled for the ASCII whitespace characters
(space, TAB, LF, VT, FF, CR). -/

/-- `unicode.IsSpace` restricted to ASCII (what `strings.TrimSpace` strips). -/
def goIsSpace (c : Char) : Bool :=
  c = ' ' || c = '\t' || c = '\n' || c = '\x0b' || c = '\x0c' || c = '\r'

/-- `strings.TrimSpace`. -/
def trimSpace (s : List Char) : List Char :=
  ((s.dropWhile goIsSpace).reverse.dropWhile goIsSpace).reverse

/-- `strings.Split(s, sep)` for a one-character separator; also models the
line splitting of `bufio.Reader.ReadString('\n')` (with the trailing
separator removed from each piece). -/
def splitOnChar (sep : Char) : List Char → List (List Char)
  | [] => [[]]
  | c :: cs =>
    if c = sep then [] :: splitOnChar sep cs
    else
      match splitOnChar sep cs with
      | l :: ls => (c :: l) :: ls
      | [] => [[c]]

/-- Value of a decimal digit character, if it is one. -/
def digitVal (c : Char) : Option Nat :=
  if '0' ≤ c ∧ c ≤ '9' then some (c.toNat - '0'.toNat) else none

/-- Decimal accumulation over a digit string; fails on any non-digit. -/
def parseDigitsGo (acc : Nat) : List Char → Option Nat
  | [] => some acc
  | c :: cs =>
    match digitVal c with
    | some d => parseDigitsGo (acc * 10 + d) cs
    | none => none

/-- Nonempty all-digit string to number (the digit part of `strconv.Atoi`). -/
def parseDigits (s : List Char) : Option Nat :=
  if s = [] then none else parseDigitsGo 0 s

/-- Model of `strconv.Atoi`: optional sign, then a nonempty digit string
(integer overflow of Go's `int` is not modelled). -/
def atoi (s : List Char) : Option Int :=
  match s with
  | [] => none
  | c :: rest =>
    if c = '-' then (parseDigits rest).map (fun n => -(n : Int))
    else if c = '+' then (parseDigits rest).map (fun n => (n : Int))
    else (parseDigits s).map (fun n => (n : Int))

/-- Decimal digits of `n`, least significant first (fuel-driven so that it
reduces definitionally; `n + 1` units of fuel always suffice). -/
def natDigitsRevAux : Nat → Nat → List Char
  | 0, _ => []
  | fuel + 1, n =>
    if n = 0 then [] else Nat.digitChar (n % 10) :: natDigitsRevAux fuel (n / 10)

/-- Decimal digits of `n`, least significant first; empty for 0. -/
def natDigitsRev (n : Nat) : List Char := natDigitsRevAux (n + 1) n

/-- Decimal rendering of a natural number. -/
def itoaNat (n : Nat) : List Char :=
  if n = 0 then ['0'] else (natDigitsRev n).reverse

/-- Model of `strconv.Itoa`. -/
def itoa (n : Int) : List Char :=
  if n < 0 then '-' :: itoaNat n.natAbs else itoaNat n.toNat

/-- The calls `readFile` makes into the authentication service for one parsed
line: a `SetCost` for a cost directive, a `Load` for an entry line. -/
inductive RAction where
  | setCost (cost : Int)
  | load (username passwordHash : List Char)
deriving DecidableEq

/-- The entry branch of the read loop (`provider.go` lines 152–156): split on
`:`; exactly two fields make a `Load`, anything else is skipped. -/
def entryFields (t : List Char) : List RAction :=
  match splitOnChar ':' t with
  | [u, h] => [.load u h]
  | _ => []

/-- One iteration of the read loop of `FileBackend.readFile` (`provider.go`
lines 133–157): trim; skip when shorter than 2; skip comments (`#`); on `$`
parse the cost — a malformed cost skips the line (`continue`), a valid one
emits `SetCost` and FALLS THROUGH to the entry-splitting code (the Go code
has no `continue` after `SetCost`, though a valid cost line can never split
into two fields); otherwise split into fields. -/
def readLine (line : List Char) : List RAction :=
  match trimSpace line with
  | [] => []
  | c :: rest =>
    if (c :: rest).length < 2 then []
    else if c = '#' then []
    else if c = '$' then
      match atoi rest with
      | none => []
      | some cost => RAction.setCost cost :: entryFields (c :: rest)
    else entryFields (c :: rest)

/-- The full read pass of `FileBackend.readFile` (`provider.go` lines
125–159): `ReadString('\n')` yields the pieces between newlines and the loop
breaks at `io.EOF`, discarding the remainder after the final newline — hence
`dropLast`. -/
def readActions (file : List Char) : List RAction :=
  ((splitOnChar '\n' file).dropLast).flatMap readLine

/-- `FileBackend.writeFile` (`provider.go` lines 172–187): one `$cost` line,
then one `username:hash` line per entry, each newline-terminated. -/
def writeFile (cost : Int) (entries : List (List Char × List Char)) : List Char :=
  ('$' :: itoa cost ++ ['\n'])
    ++ entries.flatMap (fun e => e.1 ++ ':' :: e.2 ++ ['\n'])

/-- `FileBackend.UsernameIsValid` (`provider.go` lines 45–54).  The Go code
indexes `l[0]` on the trimmed string without a length check, so an empty or
all-whitespace username panics: modelled as `none`. -/
def usernameIsValid (username : List Char) : Option Bool :=
  match trimSpace username with
  | [] => none
  | c :: rest =>
    if c = '$' ∨ c = '#' then some false
    else if ':' ∈ c :: rest then some false
    else some true

/-- The store contents the read pass builds, by the runner semantics
(`memoryservice.go`): `StartLoad` begins from an empty pending dataset, each
`SetCost` replaces the target cost, each `Load` inserts into the pending
dataset, and the final `Commit` makes the pending dataset active. -/
def applyRAction (s : Int × List (List Char × List Char)) (a : RAction) :
    Int × List (List Char × List Char) :=
  match a with
  | .setCost c => (c, s.2)
  | .load u h => (s.1, alInsert s.2 u h)

/-- Target cost and active entry set after `RequestRead` parses `file` into a
store whose target cost was `c0` (`provider.go` `readFile` driving
`StartLoad`/`SetCost`/`Load`/`Commit`). -/
def storeAfterRead (c0 : Int) (file : List Char) :
    Int × List (List Char × List Char) :=
  (readActions file).foldl applyRAction (c0, [])

/-! ### C10: UsernameIsValid -/

/-- C10 counterexample: `UsernameIsValid` is not total — for the empty string
and for an all-whitespace string the Go code indexes `l[0]` of an empty
trimmed string and panics (`provider.go` line 47), so no boolean is
returned. -/
theorem C10_counterexample_empty_username :
    usernameIsValid [] = none ∧ usernameIsValid [' ', '\t'] = none := by
  decide

/-- C10 (amended): whenever the trimmed username is nonempty,
`UsernameIsValid` does return a boolean, and it is `true` exactly when the
trimmed username does not start with `'$'` or `'#'` and does not contain
`':'`; for an empty or all-whitespace username the code panics instead of
returning. -/
theorem C10_amended_usernameIsValid (u : List Char) (c : Char) (rest : List Char)
    (h : trimSpace u = c :: rest) :
    usernameIsValid u
      = some (!(c = '$' || c = '#') && !((c :: rest).contains ':')) := by
  unfold usernameIsValid
  rw [h]
  by_cases h1 : c = '$' ∨ c = '#'
  · rcases h1 with h1 | h1 <;> simp [h1]
  · push_neg at h1
    by_cases h2 : ':' ∈ c :: rest
    · simp [h1.1, h1.2, h2]
    · simp [h1.1, h1.2, h2]

/-- Witness for C10 (amended): a plain two-letter username is reported
valid. -/
theorem C10_amended_usernameIsValid_witness :
    usernameIsValid ['a', 'b']
      = some (!('a' = '$' || 'a' = '#') && !((['a', 'b']).contains ':')) :=
  C10_amended_usernameIsValid ['a', 'b'] 'a' ['b'] (by decide)

/-! ### Decimal round-trip lemmas (for C9) -/

theorem natDigitsRevAux_fuel (n : Nat) :
    ∀ fuel1 fuel2, n < fuel1 → n < fuel2 →
      natDigitsRevAux fuel1 n = natDigitsRevAux fuel2 n := by
  induction n using Nat.strong_induction_on with
  | _ n ih =>
    intro fuel1 fuel2 h1 h2
    match fuel1, fuel2 with
    | f1 + 1, f2 + 1 =>
      by_cases h0 : n = 0
      · simp [natDigitsRevAux, h0]
      · simp only [natDigitsRevAux, h0, if_false]
        have hdiv : n / 10 < n := Nat.div_lt_self (Nat.pos_of_ne_zero h0) (by omega)
        rw [ih (n / 10) hdiv f1 f2 (by omega) (by omega)]

theorem natDigitsRev_zero : natDigitsRev 0 = [] := rfl

theorem natDigitsRev_ne_zero (n : Nat) (h : n ≠ 0) :
    natDigitsRev n = Nat.digitChar (n % 10) :: natDigitsRev (n / 10) := by
  have h2 : natDigitsRev n
      = if n = 0 then [] else Nat.digitChar (n % 10) :: natDigitsRevAux n (n / 10) := rfl
  rw [h2, if_neg h]
  congr 1
  show natDigitsRevAux n (n / 10) = natDigitsRevAux (n / 10 + 1) (n / 10)
  have hdiv : n / 10 < n := Nat.div_lt_self (Nat.pos_of_ne_zero h) (by omega)
  exact natDigitsRevAux_fuel (n / 10) n (n / 10 + 1) hdiv (by omega)

theorem mem_natDigitsRev (n : Nat) :
    ∀ c ∈ natDigitsRev n, ∃ d, d < 10 ∧ c = Nat.digitChar d := by
  induction n using Nat.strong_induction_on with
  | _ n ih =>
    intro c hc
    by_cases h0 : n = 0
    · subst h0
      simp [natDigitsRev_zero] at hc
    · rw [natDigitsRev_ne_zero n h0] at hc
      rcases List.mem_cons.mp hc with rfl | hc
      · exact ⟨n % 10, Nat.mod_lt n (by omega), rfl⟩
      · exact ih (n / 10) (Nat.div_lt_self (Nat.pos_of_ne_zero h0) (by omega)) c hc

theorem digitVal_digitChar (d : Nat) (hd : d < 10) :
    digitVal (Nat.digitChar d) = some d := by
  interval_cases d <;> decide

theorem parseDigitsGo_append (acc : Nat) (xs : List Char) (c : Char) :
    parseDigitsGo acc (xs ++ [c]) =
      match parseDigitsGo acc xs with
      | some a =>
        (match digitVal c with
         | some d => some (a * 10 + d)
         | none => none)
      | none => none := by
  induction xs generalizing acc with
  | nil => cases hd : digitVal c <;> simp [parseDigitsGo, hd]
  | cons x xt ih =>
    cases hx : digitVal x <;> simp [parseDigitsGo, hx, ih]

theorem parseDigitsGo_natDigitsRev (n : Nat) :
    ∀ acc, parseDigitsGo acc (natDigitsRev n).reverse
      = some (acc * 10 ^ (natDigitsRev n).length + n) := by
  induction n using Nat.strong_induction_on with
  | _ n ih =>
    intro acc
    by_cases h0 : n = 0
    · subst h0
      simp [natDigitsRev_zero, parseDigitsGo]
    · rw [natDigitsRev_ne_zero n h0]
      simp only [List.reverse_cons, List.length_cons]
      rw [parseDigitsGo_append]
      have hdiv : n / 10 < n := Nat.div_lt_self (Nat.pos_of_ne_zero h0) (by omega)
      rw [ih (n / 10) hdiv acc]
      rw [digitVal_digitChar (n % 10) (Nat.mod_lt n (by omega))]
      have hkey : (acc * 10 ^ (natDigitsRev (n / 10)).length + n / 10) * 10 + n % 10
          = acc * 10 ^ ((natDigitsRev (n / 10)).length + 1) + n := by
        have hdm : 10 * (n / 10) + n % 10 = n := Nat.div_add_mod n 10
        have hexp : (acc * 10 ^ (natDigitsRev (n / 10)).length + n / 10) * 10 + n % 10
            = acc * (10 ^ (natDigitsRev (n / 10)).length * 10)
              + (10 * (n / 10) + n % 10) := by ring
        rw [hexp, hdm, pow_succ]
      exact congrArg some hkey

theorem parseDigits_itoaNat (n : Nat) : parseDigits (itoaNat n) = some n := by
  by_cases h0 : n = 0
  · subst h0
    decide
  · have hne : (natDigitsRev n).reverse ≠ [] := by
      rw [natDigitsRev_ne_zero n h0]
      simp
    unfold itoaNat parseDigits
    rw [if_neg h0, if_neg hne]
    simpa using parseDigitsGo_natDigitsRev n 0

theorem mem_itoaNat (n : Nat) (c : Char) (hc : c ∈ itoaNat n) :
    ∃ d, d < 10 ∧ c = Nat.digitChar d := by
  unfold itoaNat at hc
  by_cases h0 : n = 0
  · simp [h0] at hc
    exact ⟨0, by omega, by rw [hc]; rfl⟩
  · rw [if_neg h0, List.mem_reverse] at hc
    exact mem_natDigitsRev n c hc

theorem itoaNat_ne_nil (n : Nat) : itoaNat n ≠ [] := by
  unfold itoaNat
  by_cases h0 : n = 0
  · simp [h0]
  · rw [if_neg h0, natDigitsRev_ne_zero n h0]
    simp

theorem atoi_itoa (n : Int) : atoi (itoa n) = some n := by
  unfold itoa
  by_cases hneg : n < 0
  · rw [if_pos hneg]
    have hred : atoi ('-' :: itoaNat n.natAbs)
        = (parseDigits (itoaNat n.natAbs)).map (fun k => -(k : Int)) := by
      simp [atoi]
    rw [hred, parseDigits_itoaNat]
    show some (-(n.natAbs : Int)) = some n
    congr 1
    omega
  · rw [if_neg hneg]
    obtain ⟨c, rest, heq⟩ := List.exists_cons_of_ne_nil (itoaNat_ne_nil n.toNat)
    obtain ⟨d, hd, rfl⟩ :=
      mem_itoaNat n.toNat c (by rw [heq]; exact List.mem_cons_self _ _)
    have h1 : ¬Nat.digitChar d = '-' := by interval_cases d <;> decide
    have h2 : ¬Nat.digitChar d = '+' := by interval_cases d <;> decide
    have hred : atoi (Nat.digitChar d :: rest)
        = (parseDigits (Nat.digitChar d :: rest)).map (fun k => (k : Int)) := by
      simp [atoi, h1, h2]
    rw [heq, hred, ← heq, parseDigits_itoaNat]
    show some ((n.toNat : Int)) = some n
    congr 1
    omega

/-! ### TrimSpace and Split lemmas (for C9) -/

theorem length_dropWhile_le (p : Char → Bool) (l : List Char) :
    (l.dropWhile p).length ≤ l.length := by
  induction l with
  | nil => simp
  | cons a t ih =>
    rw [List.dropWhile_cons]
    split
    · exact le_trans ih (by simp)
    · simp

theorem dropWhile_eq_self_of_length (p : Char → Bool) :
    ∀ l : List Char, (l.dropWhile p).length = l.length → l.dropWhile p = l := by
  intro l h
  cases l with
  | nil => rfl
  | cons a t =>
    by_cases hp : p a
    · rw [List.dropWhile_cons, if_pos hp] at h ⊢
      exfalso
      have := length_dropWhile_le p t
      simp at h
      omega
    · rw [List.dropWhile_cons, if_neg hp]

theorem dropWhile_cons_head (p : Char → Bool) (a : Char) (l : List Char)
    (h : List.dropWhile p (a :: l) = a :: l) : p a = false := by
  by_cases hp : p a
  · exfalso
    rw [List.dropWhile_cons, if_pos hp] at h
    have h1 := congrArg List.length h
    have h2 := length_dropWhile_le p l
    simp at h1
    omega
  · simpa using hp

theorem dropWhile_cons_of_neg (p : Char → Bool) (a : Char) (l : List Char)
    (h : p a = false) : List.dropWhile p (a :: l) = a :: l := by
  rw [List.dropWhile_cons, if_neg (by simp [h])]

theorem trimSpace_eq_self_parts (s : List Char) (h : trimSpace s = s) :
    s.dropWhile goIsSpace = s ∧ s.reverse.dropWhile goIsSpace = s.reverse := by
  unfold trimSpace at h
  have hlen := congrArg List.length h
  have h1 := length_dropWhile_le goIsSpace s
  have h2 := length_dropWhile_le goIsSpace (s.dropWhile goIsSpace).reverse
  simp only [List.length_reverse] at hlen h2
  have hA : (s.dropWhile goIsSpace).length = s.length := by omega
  have hAeq : s.dropWhile goIsSpace = s := dropWhile_eq_self_of_length goIsSpace s hA
  rw [hAeq] at h
  have hBeq : s.reverse.dropWhile goIsSpace = s.reverse := by
    have := congrArg List.reverse h
    simpa using this
  exact ⟨hAeq, hBeq⟩

theorem trimSpace_of_parts (s : List Char)
    (h1 : s.dropWhile goIsSpace = s)
    (h2 : s.reverse.dropWhile goIsSpace = s.reverse) :
    trimSpace s = s := by
  unfold trimSpace
  rw [h1, h2, List.reverse_reverse]

theorem dropWhile_concat_right (p : Char → Bool) (x : List Char) (c : Char)
    (y : List Char) (hx : x.dropWhile p = x) (hc : p c = false) :
    (x ++ c :: y).dropWhile p = x ++ c :: y := by
  cases x with
  | nil => simpa using dropWhile_cons_of_neg p c y hc
  | cons a t =>
    have ha : p a = false := dropWhile_cons_head p a t hx
    simpa using dropWhile_cons_of_neg p a (t ++ c :: y) ha

theorem trimSpace_entry_line (u h : List Char)
    (hu : trimSpace u = u) (hh : trimSpace h = h) :
    trimSpace (u ++ ':' :: h) = u ++ ':' :: h := by
  obtain ⟨hu1, hu2⟩ := trimSpace_eq_self_parts u hu
  obtain ⟨hh1, hh2⟩ := trimSpace_eq_self_parts h hh
  apply trimSpace_of_parts
  · exact dropWhile_concat_right goIsSpace u ':' h hu1 (by decide)
  · have hshape : (u ++ ':' :: h).reverse = h.reverse ++ ':' :: u.reverse := by
      simp
    rw [hshape]
    exact dropWhile_concat_right goIsSpace h.reverse ':' u.reverse hh2 (by decide)

theorem trimSpace_of_all_not (s : List Char)
    (h : ∀ c ∈ s, goIsSpace c = false) : trimSpace s = s := by
  apply trimSpace_of_parts
  · cases s with
    | nil => rfl
    | cons a t => exact dropWhile_cons_of_neg goIsSpace a t (h a (by simp))
  · cases hs : s.reverse with
    | nil => rfl
    | cons a t =>
      refine dropWhile_cons_of_neg goIsSpace a t (h a ?_)
      have : a ∈ s.reverse := by rw [hs]; simp
      simpa using this

theorem splitOnChar_not_mem (sep : Char) (s : List Char) (h : sep ∉ s) :
    splitOnChar sep s = [s] := by
  induction s with
  | nil => rfl
  | cons a t ih =>
    simp only [List.mem_cons] at h
    push_neg at h
    have ha : ¬a = sep := fun hh => h.1 hh.symm
    rw [splitOnChar, if_neg ha, ih h.2]

theorem splitOnChar_append (sep : Char) (x rest : List Char) (hx : sep ∉ x) :
    splitOnChar sep (x ++ sep :: rest) = x :: splitOnChar sep rest := by
  induction x with
  | nil => simp [splitOnChar]
  | cons a t ih =>
    simp only [List.mem_cons] at hx
    push_neg at hx
    have ha : ¬a = sep := fun hh => hx.1 hh.symm
    rw [List.cons_append, splitOnChar, if_neg ha, ih hx.2]

theorem splitOnChar_flatMap_lines (sep : Char) (lines : List (List Char))
    (h : ∀ l ∈ lines, sep ∉ l) :
    splitOnChar sep (lines.flatMap (fun l => l ++ [sep])) = lines ++ [[]] := by
  induction lines with
  | nil => rfl
  | cons l ls ih =>
    rw [List.flatMap_cons]
    have hshape : (l ++ [sep]) ++ ls.flatMap (fun l => l ++ [sep])
        = l ++ sep :: ls.flatMap (fun l => l ++ [sep]) := by simp
    rw [hshape, splitOnChar_append sep l _ (h l (by simp)),
      ih (fun x hx => h x (by simp [hx]))]
    rfl

/-! ### Evaluating the read pass on written files (for C9) -/

theorem readLine_of_trim (line : List Char) (c : Char) (rest : List Char)
    (h : trimSpace line = c :: rest) :
    readLine line =
      (if (c :: rest).length < 2 then []
       else if c = '#' then []
       else if c = '$' then
         match atoi rest with
         | none => []
         | some cost => RAction.setCost cost :: entryFields (c :: rest)
       else entryFields (c :: rest)) := by
  unfold readLine
  rw [h]

theorem itoa_chars (n : Int) : ∀ c ∈ itoa n, goIsSpace c = false ∧ c ≠ ':' := by
  intro c hc
  unfold itoa at hc
  by_cases h : n < 0
  · rw [if_pos h] at hc
    rcases List.mem_cons.mp hc with rfl | hc
    · exact ⟨by decide, by decide⟩
    · obtain ⟨d, hd, rfl⟩ := mem_itoaNat _ c hc
      exact ⟨by interval_cases d <;> decide, by interval_cases d <;> decide⟩
  · rw [if_neg h] at hc
    obtain ⟨d, hd, rfl⟩ := mem_itoaNat _ c hc
    exact ⟨by interval_cases d <;> decide, by interval_cases d <;> decide⟩

theorem itoa_ne_nil (n : Int) : itoa n ≠ [] := by
  unfold itoa
  by_cases h : n < 0
  · simp [h]
  · rw [if_neg h]
    exact itoaNat_ne_nil n.toNat

theorem readLine_cost (cost : Int) :
    readLine ('$' :: itoa cost) = [RAction.setCost cost] := by
  have hall : ∀ c ∈ '$' :: itoa cost, goIsSpace c = false := by
    intro c hc
    rcases List.mem_cons.mp hc with rfl | hc
    · decide
    · exact (itoa_chars cost c hc).1
  have htrim := trimSpace_of_all_not _ hall
  obtain ⟨c0, rest0, heq⟩ := List.exists_cons_of_ne_nil (itoa_ne_nil cost)
  have hlen : ¬('$' :: itoa cost).length < 2 := by
    rw [heq]
    simp
  have hcolon : ':' ∉ '$' :: itoa cost := by
    intro hmem
    rcases List.mem_cons.mp hmem with hm | hm
    · exact absurd hm (by decide)
    · exact (itoa_chars cost ':' hm).2 rfl
  rw [readLine_of_trim _ '$' (itoa cost) htrim, if_neg hlen,
    if_neg (show ¬ ('$' = '#') by decide), if_pos rfl, atoi_itoa]
  show RAction.setCost cost :: entryFields ('$' :: itoa cost) = _
  unfold entryFields
  rw [splitOnChar_not_mem ':' _ hcolon]

theorem valid_trimmed_username (u : List Char)
    (hv : usernameIsValid u = some true) (ht : trimSpace u = u) :
    ∃ a t', u = a :: t' ∧ a ≠ '$' ∧ a ≠ '#' ∧ ':' ∉ u := by
  unfold usernameIsValid at hv
  rw [ht] at hv
  cases u with
  | nil => exact absurd (show (none : Option Bool) = some true from hv) (by simp)
  | cons a t' =>
    have hv' : (if a = '$' ∨ a = '#' then some false
        else if ':' ∈ a :: t' then some false else some true)
        = (some true : Option Bool) := hv
    by_cases h1 : a = '$' ∨ a = '#'
    · rw [if_pos h1] at hv'
      exact absurd hv' (by simp)
    · rw [if_neg h1] at hv'
      push_neg at h1
      by_cases h2 : ':' ∈ a :: t'
      · rw [if_pos h2] at hv'
        exact absurd hv' (by simp)
      · exact ⟨a, t', rfl, h1.1, h1.2, h2⟩

theorem readLine_entry (u h : List Char) (hv : usernameIsValid u = some true)
    (htu : trimSpace u = u) (hth : trimSpace h = h) (hcolh : ':' ∉ h) :
    readLine (u ++ ':' :: h) = [RAction.load u h] := by
  obtain ⟨a, t', rfl, ha1, ha2, hcolu⟩ := valid_trimmed_username u hv htu
  have htrim : trimSpace ((a :: t') ++ ':' :: h) = (a :: t') ++ ':' :: h :=
    trimSpace_entry_line _ _ htu hth
  have htrim' : trimSpace ((a :: t') ++ ':' :: h) = a :: (t' ++ ':' :: h) := htrim
  have hlen : ¬(a :: (t' ++ ':' :: h)).length < 2 := by
    simp
    omega
  rw [readLine_of_trim _ a (t' ++ ':' :: h) htrim', if_neg hlen, if_neg ha2,
    if_neg ha1]
  unfold entryFields
  rw [show a :: (t' ++ ':' :: h) = (a :: t') ++ ':' :: h from rfl,
    splitOnChar_append ':' (a :: t') h hcolu, splitOnChar_not_mem ':' h hcolh]

theorem flatMap_readLine_entries (entries : List (List Char × List Char))
    (hv : ∀ e ∈ entries, usernameIsValid e.1 = some true)
    (ht : ∀ e ∈ entries, trimSpace e.1 = e.1 ∧ trimSpace e.2 = e.2)
    (hcol : ∀ e ∈ entries, ':' ∉ e.2) :
    (entries.map (fun e => e.1 ++ ':' :: e.2)).flatMap readLine
      = entries.map (fun e => RAction.load e.1 e.2) := by
  induction entries with
  | nil => rfl
  | cons e es ih =>
    simp only [List.map_cons, List.flatMap_cons]
    rw [readLine_entry e.1 e.2 (hv e (by simp)) (ht e (by simp)).1
      (ht e (by simp)).2 (hcol e (by simp)),
      ih (fun x hx => hv x (by simp [hx])) (fun x hx => ht x (by simp [hx]))
        (fun x hx => hcol x (by simp [hx]))]
    rfl

theorem writeFile_lines (cost : Int) (entries : List (List Char × List Char)) :
    writeFile cost entries
      = (('$' :: itoa cost) :: entries.map (fun e => e.1 ++ ':' :: e.2)).flatMap
          (fun l => l ++ ['\n']) := by
  unfold writeFile
  simp [List.flatMap_cons, List.flatMap_map, Function.comp]

theorem foldl_applyRAction_loads (entries : List (List Char × List Char)) :
    ∀ (c : Int) (m : List (List Char × List Char)),
    (entries.map (fun e => RAction.load e.1 e.2)).foldl applyRAction (c, m)
      = (c, entries.foldl (fun mm e => alInsert mm e.1 e.2) m) := by
  induction entries with
  | nil => intro c m; rfl
  | cons e es ih =>
    intro c m
    simp only [List.map_cons, List.foldl_cons]
    exact ih c (alInsert m e.1 e.2)

theorem alLookup_eq_none_of_not_mem {κ α : Type} [DecidableEq κ]
    (es : List (κ × α)) (u : κ) (hu : u ∉ es.map Prod.fst) :
    alLookup es u = none := by
  induction es with
  | nil => rfl
  | cons e es ih =>
    obtain ⟨k, v⟩ := e
    simp only [List.map_cons, List.mem_cons] at hu
    push_neg at hu
    rw [show alLookup ((k, v) :: es) u
      = if k = u then some v else alLookup es u from rfl,
      if_neg (fun hh => hu.1 hh.symm)]
    exact ih hu.2

theorem alLookup_foldl_gen {κ α : Type} [DecidableEq κ] (es : List (κ × α))
    (hn : (es.map Prod.fst).Nodup) : ∀ (d : List (κ × α)) (u : κ),
    alLookup (es.foldl (fun m e => alInsert m e.1 e.2) d) u
      = (match alLookup es u with
         | some v => some v
         | none => alLookup d u) := by
  induction es with
  | nil => intro d u; rfl
  | cons e es ih =>
    intro d u
    obtain ⟨k, v⟩ := e
    have hn' : (es.map Prod.fst).Nodup := (List.nodup_cons.mp (by simpa using hn)).2
    have hk : k ∉ es.map Prod.fst := (List.nodup_cons.mp (by simpa using hn)).1
    simp only [List.foldl_cons]
    rw [ih hn' (alInsert d k v) u]
    by_cases hu : u = k
    · subst hu
      rw [alLookup_eq_none_of_not_mem es u hk,
        show alLookup ((u, v) :: es) u = some v from by simp [alLookup]]
      show alLookup (alInsert d u v) u = some v
      exact alLookup_alInsert_self d u v
    · rw [show alLookup ((k, v) :: es) u = alLookup es u from by
        rw [show alLookup ((k, v) :: es) u
          = if k = u then some v else alLookup es u from rfl,
          if_neg (fun hh => hu hh.symm)]]
      cases hes : alLookup es u
      · show alLookup (alInsert d k v) u = alLookup d u
        exact alLookup_alInsert_ne d k u v hu
      · rfl

theorem alLookup_foldl_nodup {κ α : Type} [DecidableEq κ] (es : List (κ × α))
    (hn : (es.map Prod.fst).Nodup) (u : κ) :
    alLookup (es.foldl (fun m e => alInsert m e.1 e.2) []) u = alLookup es u := by
  rw [alLookup_foldl_gen es hn [] u]
  cases alLookup es u <;> rfl

theorem dropLast_append_single {α : Type} (l : List α) (x : α) :
    (l ++ [x]).dropLast = l := by simp

/-! ### C9: persistence round-trip -/

/-- C9 counterexample: the username `" a"` (leading space) is accepted by
`UsernameIsValid` — validity is checked on the TRIMMED name — but the read
pass also trims each line, so after a write/read round-trip the entry comes
back under the trimmed name `"a"`: the reloaded entry set is not equivalent
to the persisted one. -/
theorem C9_counterexample_whitespace_username :
    usernameIsValid [' ', 'a'] = some true
    ∧ alLookup (storeAfterRead 10 (writeFile 10 [([' ', 'a'], ['h'])])).2
        [' ', 'a'] = none
    ∧ alLookup (storeAfterRead 10 (writeFile 10 [([' ', 'a'], ['h'])])).2
        ['a'] = some ['h'] := by
  refine ⟨by decide, by decide, by decide⟩

/-- C9 (amended): the write/read round-trip holds when, in addition to
`UsernameIsValid`, each username and hash is invariant under whitespace
trimming and contains no newline, and hashes contain no `':'` (bcrypt hashes
satisfy all of these).  Then the read pass recovers exactly the written
`SetCost` directive followed by one `Load` per entry, so the reloaded store
has the persisted target cost, and — for distinct usernames, as produced by
`List()` — an entry set equivalent to the persisted one. -/
theorem C9_amended_roundtrip (cost c0 : Int)
    (entries : List (List Char × List Char))
    (hv : ∀ e ∈ entries, usernameIsValid e.1 = some true)
    (ht : ∀ e ∈ entries, trimSpace e.1 = e.1 ∧ trimSpace e.2 = e.2)
    (hnl : ∀ e ∈ entries, '\n' ∉ e.1 ∧ '\n' ∉ e.2)
    (hcol : ∀ e ∈ entries, ':' ∉ e.2)
    (hnodup : (entries.map Prod.fst).Nodup) :
    readActions (writeFile cost entries)
      = RAction.setCost cost :: entries.map (fun e => RAction.load e.1 e.2)
    ∧ (storeAfterRead c0 (writeFile cost entries)).1 = cost
    ∧ ∀ u, alLookup (storeAfterRead c0 (writeFile cost entries)).2 u
        = alLookup entries u := by
  have hlines : ∀ l ∈ ('$' :: itoa cost) :: entries.map (fun e => e.1 ++ ':' :: e.2),
      '\n' ∉ l := by
    intro l hl
    rcases List.mem_cons.mp hl with rfl | hl
    · intro hmem
      rcases List.mem_cons.mp hmem with hm | hm
      · exact absurd hm (by decide)
      · exact absurd (itoa_chars cost '\n' hm).1 (by decide)
    · obtain ⟨e, he, rfl⟩ := List.mem_map.mp hl
      intro hmem
      rcases List.mem_append.mp hmem with hm | hm
      · exact (hnl e he).1 hm
      · rcases List.mem_cons.mp hm with hm | hm
        · exact absurd hm (by decide)
        · exact (hnl e he).2 hm
  have hread : readActions (writeFile cost entries)
      = RAction.setCost cost :: entries.map (fun e => RAction.load e.1 e.2) := by
    unfold readActions
    rw [writeFile_lines, splitOnChar_flatMap_lines '\n' _ hlines,
      dropLast_append_single,
      List.flatMap_cons, readLine_cost,
      flatMap_readLine_entries entries hv ht hcol]
    rfl
  have hstore : storeAfterRead c0 (writeFile cost entries)
      = (cost, entries.foldl (fun mm e => alInsert mm e.1 e.2) []) := by
    unfold storeAfterRead
    rw [hread, List.foldl_cons]
    exact foldl_applyRAction_loads entries cost []
  refine ⟨hread, by rw [hstore], fun u => ?_⟩
  rw [hstore]
  exact alLookup_foldl_nodup entries hnodup u

/-- Witness for C9 (amended) at a concrete store: one entry `a:h` persisted
with cost 7 into a store whose cost was 10 reloads exactly. -/
theorem C9_amended_roundtrip_witness :
    readActions (writeFile 7 [(['a'], ['h'])])
      = RAction.setCost 7 :: [(['a'], ['h'])].map (fun e => RAction.load e.1 e.2)
    ∧ (storeAfterRead 10 (writeFile 7 [(['a'], ['h'])])).1 = 7
    ∧ ∀ u, alLookup (storeAfterRead 10 (writeFile 7 [(['a'], ['h'])])).2 u
        = alLookup [(['a'], ['h'])] u :=
  C9_amended_roundtrip 7 10 [(['a'], ['h'])]
    (by decide) (by decide) (by decide) (by decide) (by decide)
